import Mathlib

/-!
Shallow embedding of the log-structured key-value store of `src/kvs/src/lib.rs`
(crate `kvs`): an append-only command log, an in-memory `key -> offset` index,
a garbage counter and threshold-triggered compaction.

Modelling conventions:
* The log file is a `List Nat` of abstract bytes.  The crate serializes
  commands with `rmp_serde` (MessagePack), whose only property the code relies
  on is that records are self-delimiting: decoding consumes a well-defined
  number of bytes and fails on a truncated or malformed tail.  We model that
  contract with a concrete executable length-prefixed encoding (`encodeCmd` /
  `decodeCmd`) satisfying exactly those properties.
* `HashMap<String, u64>` is modelled as an association list without duplicate
  keys; `insert` replaces the existing entry in place, `remove` drops the
  entries of the key.
* The `BufReader` read cursor is tracked as a ghost field `cursor`: every read
  and write in the source first performs an absolute seek, so no behaviour
  depends on the previous cursor position.
* I/O never fails in the model (the claims under study are not about I/O
  faults); `rmp_serde` encoding of a command cannot fail.  The fallible
  operations return an explicit error value next to the post-state, mirroring
  `&mut self` + `Result`.
-/

namespace Kvs

/-- Keys are strings, as in the source (`type Key = String`). -/
abbrev Key := String

/-- Values are strings, as in the source (`type Value = String`). -/
abbrev Value := String

/-- The commands written to the log, mirroring `enum KvCommand { Set(Key, Value), Rm(Key) }`. -/
inductive KvCommand where
  | Set : Key → Value → KvCommand
  | Rm : Key → KvCommand
deriving DecidableEq, Repr

/-- Error kinds of `KvStoreError` that the model can produce (I/O and
serialization-infrastructure failures do not arise in the model). -/
inductive KvStoreError where
  | RmKeyNotFoundError
  | GetError
  | CompactionError
deriving DecidableEq, Repr

/-- Encoding of a string: a length byte followed by the character codes.
Models one self-delimiting MessagePack field. -/
def encodeStr (s : String) : List Nat :=
  s.length :: s.data.map Char.toNat

/-- Decoding of a string starting at the head of `l`; returns the string and
the number of bytes consumed, or `none` when the bytes are truncated. -/
def decodeStr : List Nat → Option (String × Nat)
  | [] => none
  | n :: rest =>
    if n ≤ rest.length then some (String.mk ((rest.take n).map Char.ofNat), n + 1)
    else none

/-- Encoding of a `KvCommand`: a tag byte then the field encodings.  Models
`rmp_serde::encode::to_vec`. -/
def encodeCmd : KvCommand → List Nat
  | .Set k v => 0 :: (encodeStr k ++ encodeStr v)
  | .Rm k => 1 :: encodeStr k

/-- Decoding of one `KvCommand` from the head of `l`; returns the command and
the number of bytes consumed.  Models `KvCommand::deserialize`: it fails on a
truncated or malformed head and is oblivious to any bytes after the record. -/
def decodeCmd : List Nat → Option (KvCommand × Nat)
  | 0 :: rest =>
    match decodeStr rest with
    | some (k, n₁) =>
      match decodeStr (rest.drop n₁) with
      | some (v, n₂) => some (.Set k v, 1 + n₁ + n₂)
      | none => none
    | none => none
  | 1 :: rest =>
    match decodeStr rest with
    | some (k, n₁) => some (.Rm k, 1 + n₁)
    | none => none
  | _ => none

theorem decodeStr_length_le {l : List Nat} {s : String} {n : Nat}
    (h : decodeStr l = some (s, n)) : n ≤ l.length := by
  match l with
  | [] => simp [decodeStr] at h
  | m :: rest =>
    simp only [decodeStr] at h
    split at h
    · rename_i hle
      simp only [Option.some.injEq, Prod.mk.injEq] at h
      simp only [List.length_cons]
      omega
    · exact absurd h (by simp)

theorem decodeStr_pos {l : List Nat} {s : String} {n : Nat}
    (h : decodeStr l = some (s, n)) : 0 < n := by
  match l with
  | [] => simp [decodeStr] at h
  | m :: rest =>
    simp only [decodeStr] at h
    split at h
    · simp only [Option.some.injEq, Prod.mk.injEq] at h
      omega
    · exact absurd h (by simp)

theorem decodeStr_append {l r : List Nat} {s : String} {n : Nat}
    (h : decodeStr l = some (s, n)) : decodeStr (l ++ r) = some (s, n) := by
  match l with
  | [] => simp [decodeStr] at h
  | m :: rest =>
    simp only [decodeStr] at h
    split at h
    · rename_i hle
      simp only [Option.some.injEq, Prod.mk.injEq] at h
      obtain ⟨hs, hn⟩ := h
      simp only [List.cons_append, decodeStr]
      rw [if_pos (by simp; omega)]
      rw [List.take_append_of_le_length hle, hs, hn]
    · exact absurd h (by simp)

theorem map_ofNat_map_toNat (l : List Char) : (l.map Char.toNat).map Char.ofNat = l := by
  induction l with
  | nil => rfl
  | cons c t ih => simp only [List.map_cons, Char.ofNat_toNat, ih]

theorem decodeStr_encodeStr (s : String) (r : List Nat) :
    decodeStr (encodeStr s ++ r) = some (s, (encodeStr s).length) := by
  have hlen : s.length = (s.data.map Char.toNat).length := by
    simp only [List.length_map]
    rfl
  simp only [encodeStr, List.cons_append, decodeStr]
  have hle : s.length ≤ (s.data.map Char.toNat ++ r).length := by
    simp only [List.length_append]
    omega
  rw [if_pos hle]
  have htake : (s.data.map Char.toNat ++ r).take s.length = s.data.map Char.toNat := by
    rw [hlen, List.take_left]
  rw [htake, map_ofNat_map_toNat]
  simp only [List.length_cons, List.length_map, Option.some.injEq, Prod.mk.injEq]
  constructor
  · trivial
  · rfl

theorem decodeCmd_pos {l : List Nat} {c : KvCommand} {n : Nat}
    (h : decodeCmd l = some (c, n)) : 0 < n := by
  match l with
  | [] => simp [decodeCmd] at h
  | 0 :: rest =>
    simp only [decodeCmd] at h
    split at h
    · split at h
      · simp only [Option.some.injEq, Prod.mk.injEq] at h
        omega
      · exact absurd h (by simp)
    · exact absurd h (by simp)
  | 1 :: rest =>
    simp only [decodeCmd] at h
    split at h
    · simp only [Option.some.injEq, Prod.mk.injEq] at h
      omega
    · exact absurd h (by simp)
  | (m + 2) :: rest => simp [decodeCmd] at h

theorem decodeCmd_le {l : List Nat} {c : KvCommand} {n : Nat}
    (h : decodeCmd l = some (c, n)) : n ≤ l.length := by
  match l with
  | [] => simp [decodeCmd] at h
  | 0 :: rest =>
    simp only [decodeCmd] at h
    split at h
    · rename_i k n₁ h₁
      split at h
      · rename_i v n₂ h₂
        simp only [Option.some.injEq, Prod.mk.injEq] at h
        have hle₁ := decodeStr_length_le h₁
        have hle₂ := decodeStr_length_le h₂
        simp only [List.length_drop] at hle₂
        simp only [List.length_cons]
        omega
      · exact absurd h (by simp)
    · exact absurd h (by simp)
  | 1 :: rest =>
    simp only [decodeCmd] at h
    split at h
    · rename_i k n₁ h₁
      simp only [Option.some.injEq, Prod.mk.injEq] at h
      have hle₁ := decodeStr_length_le h₁
      simp only [List.length_cons]
      omega
    · exact absurd h (by simp)
  | (m + 2) :: rest => simp [decodeCmd] at h

theorem decodeCmd_append {l r : List Nat} {c : KvCommand} {n : Nat}
    (h : decodeCmd l = some (c, n)) : decodeCmd (l ++ r) = some (c, n) := by
  match l with
  | [] => simp [decodeCmd] at h
  | 0 :: rest =>
    simp only [decodeCmd] at h
    split at h
    · rename_i k n₁ h₁
      split at h
      · rename_i v n₂ h₂
        simp only [List.cons_append, decodeCmd, decodeStr_append h₁]
        rw [List.drop_append_of_le_length (decodeStr_length_le h₁)]
        simp only [decodeStr_append h₂]
        exact h
      · exact absurd h (by simp)
    · exact absurd h (by simp)
  | 1 :: rest =>
    simp only [decodeCmd] at h
    split at h
    · rename_i k n₁ h₁
      simp only [List.cons_append, decodeCmd, decodeStr_append h₁]
      exact h
    · exact absurd h (by simp)
  | (m + 2) :: rest => simp [decodeCmd] at h

theorem decodeCmd_encodeCmd (c : KvCommand) (r : List Nat) :
    decodeCmd (encodeCmd c ++ r) = some (c, (encodeCmd c).length) := by
  match c with
  | .Set k v =>
    simp only [encodeCmd, List.cons_append, List.append_assoc, decodeCmd,
      decodeStr_encodeStr k (encodeStr v ++ r)]
    rw [List.drop_left]
    simp only [decodeStr_encodeStr v r]
    simp only [Option.some.injEq, Prod.mk.injEq, List.length_cons, List.length_append]
    exact ⟨trivial, by omega⟩
  | .Rm k =>
    simp only [encodeCmd, List.cons_append, decodeCmd, decodeStr_encodeStr k r]
    simp only [Option.some.injEq, Prod.mk.injEq, List.length_cons]
    exact ⟨trivial, by omega⟩


/-- The in-memory index, `type Index = HashMap<String, u64>`, modelled as an
association list; the store only ever builds lists without duplicate keys. -/
abbrev Index := List (Key × Nat)

/-- `HashMap::get`. -/
def idxLookup : Index → Key → Option Nat
  | [], _ => none
  | e :: t, k => if e.1 = k then some e.2 else idxLookup t k

/-- `HashMap::contains_key`. -/
def idxContains (idx : Index) (k : Key) : Bool :=
  (idxLookup idx k).isSome

/-- `HashMap::insert`: replaces the entry of `k` in place when present,
otherwise adds a new entry. -/
def idxInsert : Index → Key → Nat → Index
  | [], k, p => [(k, p)]
  | e :: t, k, p => if e.1 = k then (k, p) :: t else e :: idxInsert t k p

/-- `HashMap::remove`: drops the entry of `k`. -/
def idxRemove : Index → Key → Index
  | [], _ => []
  | e :: t, k => if e.1 = k then idxRemove t k else e :: idxRemove t k

/-- The index has no two entries for the same key (always true of a `HashMap`). -/
def nodupKeys (idx : Index) : Prop :=
  (idx.map Prod.fst).Nodup

theorem idxLookup_insert_self (idx : Index) (k : Key) (p : Nat) :
    idxLookup (idxInsert idx k p) k = some p := by
  induction idx with
  | nil => simp [idxInsert, idxLookup]
  | cons e t ih =>
    by_cases he : e.1 = k
    · simp [idxInsert, if_pos he, idxLookup]
    · simp only [idxInsert, if_neg he, idxLookup, if_neg he]
      exact ih

theorem idxLookup_insert_ne (idx : Index) (k k' : Key) (p : Nat) (h : k' ≠ k) :
    idxLookup (idxInsert idx k p) k' = idxLookup idx k' := by
  induction idx with
  | nil =>
    simp only [idxInsert, idxLookup]
    rw [if_neg (Ne.symm h)]
  | cons e t ih =>
    by_cases he : e.1 = k
    · simp only [idxInsert, if_pos he, idxLookup]
      rw [if_neg (Ne.symm h), if_neg (by rw [he]; exact Ne.symm h)]
    · simp only [idxInsert, if_neg he, idxLookup]
      by_cases he' : e.1 = k'
      · rw [if_pos he', if_pos he']
      · rw [if_neg he', if_neg he']
        exact ih

theorem idxLookup_remove_self (idx : Index) (k : Key) :
    idxLookup (idxRemove idx k) k = none := by
  induction idx with
  | nil => rfl
  | cons e t ih =>
    by_cases he : e.1 = k
    · simp only [idxRemove, if_pos he]
      exact ih
    · simp only [idxRemove, if_neg he, idxLookup, if_neg he]
      exact ih

theorem idxLookup_remove_ne (idx : Index) (k k' : Key) (h : k' ≠ k) :
    idxLookup (idxRemove idx k) k' = idxLookup idx k' := by
  induction idx with
  | nil => rfl
  | cons e t ih =>
    by_cases he : e.1 = k
    · simp only [idxRemove, if_pos he, idxLookup]
      rw [if_neg (by rw [he]; exact Ne.symm h)]
      exact ih
    · simp only [idxRemove, if_neg he, idxLookup]
      by_cases he' : e.1 = k'
      · rw [if_pos he', if_pos he']
      · rw [if_neg he', if_neg he']
        exact ih

theorem idxRemove_of_lookup_none (idx : Index) (k : Key)
    (h : idxLookup idx k = none) : idxRemove idx k = idx := by
  induction idx with
  | nil => rfl
  | cons e t ih =>
    simp only [idxLookup] at h
    by_cases he : e.1 = k
    · rw [if_pos he] at h
      exact absurd h (by simp)
    · rw [if_neg he] at h
      simp only [idxRemove, if_neg he]
      rw [ih h]

theorem idxLookup_mem {idx : Index} {k : Key} {p : Nat}
    (h : idxLookup idx k = some p) : (k, p) ∈ idx := by
  induction idx with
  | nil => simp [idxLookup] at h
  | cons e t ih =>
    obtain ⟨a, b⟩ := e
    simp only [idxLookup] at h
    by_cases he : a = k
    · rw [if_pos he] at h
      simp only [Option.some.injEq] at h
      simp [← he, ← h]
    · rw [if_neg he] at h
      exact List.mem_cons_of_mem _ (ih h)

theorem idxLookup_isSome_of_mem {idx : Index} {k : Key} {p : Nat}
    (h : (k, p) ∈ idx) : (idxLookup idx k).isSome := by
  induction idx with
  | nil => simp at h
  | cons e t ih =>
    rcases List.mem_cons.mp h with h | h
    · rw [← h]
      simp [idxLookup]
    · by_cases he : e.1 = k
      · simp [idxLookup, he]
      · simp only [idxLookup, if_neg he]
        exact ih h

theorem idxLookup_none_of_not_mem_keys {idx : Index} {k : Key}
    (h : k ∉ idx.map Prod.fst) : idxLookup idx k = none := by
  induction idx with
  | nil => rfl
  | cons e t ih =>
    simp only [List.map_cons, List.mem_cons] at h
    push_neg at h
    simp only [idxLookup]
    rw [if_neg (fun hh : e.1 = k => h.1 hh.symm)]
    exact ih h.2

theorem mem_idxInsert {idx : Index} {k : Key} {p : Nat} {e : Key × Nat}
    (h : e ∈ idxInsert idx k p) : e = (k, p) ∨ e ∈ idx := by
  induction idx with
  | nil => simpa [idxInsert] using h
  | cons f t ih =>
    by_cases hf : f.1 = k
    · simp only [idxInsert, if_pos hf] at h
      rcases List.mem_cons.mp h with h | h
      · exact Or.inl h
      · exact Or.inr (List.mem_cons_of_mem _ h)
    · simp only [idxInsert, if_neg hf] at h
      rcases List.mem_cons.mp h with h | h
      · exact Or.inr (h ▸ List.mem_cons_self _ _)
      · rcases ih h with h' | h'
        · exact Or.inl h'
        · exact Or.inr (List.mem_cons_of_mem _ h')

theorem mem_idxRemove {idx : Index} {k : Key} {e : Key × Nat}
    (h : e ∈ idxRemove idx k) : e ∈ idx := by
  induction idx with
  | nil => simp [idxRemove] at h
  | cons f t ih =>
    by_cases hf : f.1 = k
    · simp only [idxRemove, if_pos hf] at h
      exact List.mem_cons_of_mem _ (ih h)
    · simp only [idxRemove, if_neg hf] at h
      rcases List.mem_cons.mp h with h | h
      · exact h ▸ List.mem_cons_self _ _
      · exact List.mem_cons_of_mem _ (ih h)

theorem length_idxInsert (idx : Index) (k : Key) (p : Nat) :
    (idxInsert idx k p).length =
      if (idxLookup idx k).isSome then idx.length else idx.length + 1 := by
  induction idx with
  | nil => simp [idxInsert, idxLookup]
  | cons e t ih =>
    by_cases he : e.1 = k
    · simp [idxInsert, if_pos he, idxLookup]
    · simp only [idxInsert, if_neg he, List.length_cons, ih, idxLookup, if_neg he]
      by_cases hs : (idxLookup t k).isSome
      · simp [hs]
      · simp [hs]

theorem length_idxRemove (idx : Index) (k : Key) (hnd : nodupKeys idx) :
    idx.length =
      (idxRemove idx k).length + if (idxLookup idx k).isSome then 1 else 0 := by
  induction idx with
  | nil => simp [idxRemove, idxLookup]
  | cons e t ih =>
    have hni : e.1 ∉ t.map Prod.fst := (List.nodup_cons.mp hnd).1
    have hnd' : nodupKeys t := (List.nodup_cons.mp hnd).2
    by_cases he : e.1 = k
    · have hnone : idxLookup t k = none :=
        idxLookup_none_of_not_mem_keys (he ▸ hni)
      have hrm : idxRemove t k = t := idxRemove_of_lookup_none t k hnone
      simp only [idxRemove, if_pos he, hrm, List.length_cons, idxLookup, if_pos he]
      simp
    · simp only [idxRemove, if_neg he, List.length_cons, idxLookup, if_neg he]
      have := ih hnd'
      omega

theorem nodupKeys_idxInsert (idx : Index) (k : Key) (p : Nat)
    (hnd : nodupKeys idx) : nodupKeys (idxInsert idx k p) := by
  induction idx with
  | nil => simp [idxInsert, nodupKeys]
  | cons e t ih =>
    have hni : e.1 ∉ t.map Prod.fst := (List.nodup_cons.mp hnd).1
    have hnd' : nodupKeys t := (List.nodup_cons.mp hnd).2
    by_cases he : e.1 = k
    · show nodupKeys (if e.1 = k then (k, p) :: t else e :: idxInsert t k p)
      rw [if_pos he]
      exact List.nodup_cons.mpr ⟨he ▸ hni, hnd'⟩
    · show nodupKeys (if e.1 = k then (k, p) :: t else e :: idxInsert t k p)
      rw [if_neg he]
      refine List.nodup_cons.mpr ⟨?_, ih hnd'⟩
      intro hmem
      rcases List.mem_map.mp hmem with ⟨q, hq, hq1⟩
      rcases mem_idxInsert hq with h' | h'
      · exact he (by rw [← hq1, h'])
      · exact hni (hq1 ▸ List.mem_map_of_mem Prod.fst h')

theorem nodupKeys_idxRemove (idx : Index) (k : Key) (hnd : nodupKeys idx) :
    nodupKeys (idxRemove idx k) := by
  induction idx with
  | nil => exact hnd
  | cons e t ih =>
    have hni : e.1 ∉ t.map Prod.fst := (List.nodup_cons.mp hnd).1
    have hnd' : nodupKeys t := (List.nodup_cons.mp hnd).2
    by_cases he : e.1 = k
    · show nodupKeys (if e.1 = k then idxRemove t k else e :: idxRemove t k)
      rw [if_pos he]
      exact ih hnd'
    · show nodupKeys (if e.1 = k then idxRemove t k else e :: idxRemove t k)
      rw [if_neg he]
      refine List.nodup_cons.mpr ⟨?_, ih hnd'⟩
      intro hmem
      rcases List.mem_map.mp hmem with ⟨q, hq, hq1⟩
      exact hni (hq1 ▸ List.mem_map_of_mem Prod.fst (mem_idxRemove hq))

/-- The engine state `struct KvStore`.  `file` holds the contents of
`kvs.log`; `comp` the contents of the transient `kvs-comp.log` when that file
exists in the data directory; `cursor` is the ghost position of the
`Deserializer`'s `BufReader` (ghost because every read and write in the
source seeks to an absolute position first). -/
structure KvStore where
  index : Index
  file : List Nat
  comp : Option (List Nat)
  garbage : Nat
  cursor : Nat
deriving DecidableEq, Repr

/-- `const COMPACTION_THRESHOLD: u32 = 100`. -/
def COMPACTION_THRESHOLD : Nat := 100

/-- The replay loop of `KvStore::open`: with `rest` the bytes of the log from
offset `pos` on, decode records one after the other, updating index and
garbage counter as the loop body does, and stop at the first record that
fails to decode.  The loop terminates because every decoded record consumes
at least one byte; `fuel` makes that recursion structural and never runs out
when it starts at the length of the remaining bytes (`replayGo_fuel`). -/
def replayGo : Nat → List Nat → Nat → Index → Nat → Index × Nat
  | 0, _, _, idx, g => (idx, g)
  | fuel + 1, rest, pos, idx, g =>
    match decodeCmd rest with
    | none => (idx, g)
    | some (.Set k _, n) =>
      replayGo fuel (rest.drop n) (pos + n) (idxInsert idx k pos)
        (if (idxLookup idx k).isSome then g + 1 else g)
    | some (.Rm k, n) =>
      replayGo fuel (rest.drop n) (pos + n) (idxRemove idx k) (g + 1)

/-- The sequence of `(offset, record)` pairs the replay scan decodes from the
log, in file order (`scan_from_start` in the spec's words), with the same
structural-fuel presentation as `replayGo`. -/
def scanGo : Nat → List Nat → Nat → List (Nat × KvCommand)
  | 0, _, _ => []
  | fuel + 1, rest, pos =>
    match decodeCmd rest with
    | none => []
    | some (c, n) => (pos, c) :: scanGo fuel (rest.drop n) (pos + n)

theorem decodeCmd_nil : decodeCmd [] = none := rfl

theorem replayGo_fuel (f₁ f₂ : Nat) (rest : List Nat) (pos : Nat) (idx : Index)
    (g : Nat) (h₁ : rest.length ≤ f₁) (h₂ : rest.length ≤ f₂) :
    replayGo f₁ rest pos idx g = replayGo f₂ rest pos idx g := by
  induction f₁ generalizing f₂ rest pos idx g with
  | zero =>
    have hnil : rest = [] := List.length_eq_zero.mp (Nat.le_zero.mp h₁)
    subst hnil
    cases f₂ with
    | zero => rfl
    | succ f => simp [replayGo, decodeCmd_nil]
  | succ f ih =>
    cases f₂ with
    | zero =>
      have hnil : rest = [] := List.length_eq_zero.mp (Nat.le_zero.mp h₂)
      subst hnil
      simp [replayGo, decodeCmd_nil]
    | succ f' =>
      simp only [replayGo]
      cases hd : decodeCmd rest with
      | none => rfl
      | some cn =>
        obtain ⟨c, n⟩ := cn
        have hp := decodeCmd_pos hd
        have hl := decodeCmd_le hd
        have hlen : (rest.drop n).length ≤ f := by
          simp only [List.length_drop]
          omega
        have hlen' : (rest.drop n).length ≤ f' := by
          simp only [List.length_drop]
          omega
        cases c with
        | Set k v => exact ih f' (rest.drop n) (pos + n) _ _ hlen hlen'
        | Rm k => exact ih f' (rest.drop n) (pos + n) _ _ hlen hlen'

theorem scanGo_fuel (f₁ f₂ : Nat) (rest : List Nat) (pos : Nat)
    (h₁ : rest.length ≤ f₁) (h₂ : rest.length ≤ f₂) :
    scanGo f₁ rest pos = scanGo f₂ rest pos := by
  induction f₁ generalizing f₂ rest pos with
  | zero =>
    have hnil : rest = [] := List.length_eq_zero.mp (Nat.le_zero.mp h₁)
    subst hnil
    cases f₂ with
    | zero => rfl
    | succ f => simp [scanGo, decodeCmd_nil]
  | succ f ih =>
    cases f₂ with
    | zero =>
      have hnil : rest = [] := List.length_eq_zero.mp (Nat.le_zero.mp h₂)
      subst hnil
      simp [scanGo, decodeCmd_nil]
    | succ f' =>
      cases hd : decodeCmd rest with
      | none => simp only [scanGo, hd]
      | some cn =>
        obtain ⟨c, n⟩ := cn
        have hp := decodeCmd_pos hd
        have hl := decodeCmd_le hd
        have hlen : (rest.drop n).length ≤ f := by
          simp only [List.length_drop]
          omega
        have hlen' : (rest.drop n).length ≤ f' := by
          simp only [List.length_drop]
          omega
        simp only [scanGo, hd]
        rw [ih f' (rest.drop n) (pos + n) hlen hlen']

/-- Replay of a whole log file, from offset 0 with empty index and zero
garbage, as in `KvStore::open`. -/
def replay (file : List Nat) : Index × Nat :=
  replayGo file.length file 0 [] 0

/-- The records of a log file, as decoded by a scan from offset 0. -/
def scanRecords (file : List Nat) : List (Nat × KvCommand) :=
  scanGo file.length file 0

/-- `KvStore::write_log`: seek to the end of the log, append the encoded
command, return the offset at which it was written. -/
def write_log (s : KvStore) (cmd : KvCommand) : Nat × KvStore :=
  (s.file.length,
    { s with file := s.file ++ encodeCmd cmd, cursor := s.file.length })

/-- The rewrite loop of `KvStore::maybe_compact_logs`: for each index entry in
order, re-read the record at its offset from the old log; if it is a `Set`,
re-encode `Set(key, value)` into the new file at the running offset `newPos`,
else fail.  Returns the entries with their new offsets on success (`none`
models `return Err(CompactionError)`), together with the bytes written up to
that point. -/
def compactGo (file : List Nat) :
    List (Key × Nat) → Nat → Option (List (Key × Nat)) × List Nat
  | [], _ => (some [], [])
  | (k, p) :: t, newPos =>
    match decodeCmd (file.drop p) with
    | some (.Set _ v, _) =>
      let bytes := encodeCmd (.Set k v)
      match compactGo file t (newPos + bytes.length) with
      | (some rest, w) => (some ((k, newPos) :: rest), bytes ++ w)
      | (none, w) => (none, bytes ++ w)
    | _ => (none, [])

/-- `KvStore::maybe_compact_logs`.  The compaction file is opened with
`write(true).create(true)` and no truncation, so when a `kvs-comp.log` is
already present in the directory, the rewrite overwrites its head and any
bytes beyond what is written survive.  On success the compaction file is
renamed over `kvs.log` and the struct fields are reset; on failure the
partially written compaction file stays in the directory and the original
fields are untouched. -/
def maybe_compact_logs (s : KvStore) : Except KvStoreError Unit × KvStore :=
  if s.garbage < COMPACTION_THRESHOLD then (.ok (), s)
  else
    let old := s.comp.getD []
    match compactGo s.file s.index 0 with
    | (some newIndex, w) =>
      (.ok (),
        { index := newIndex, file := w ++ old.drop w.length, comp := none,
          garbage := 0, cursor := 0 })
    | (none, w) =>
      (.error .CompactionError, { s with comp := some (w ++ old.drop w.length) })

/-- `KvStore::get`: look the key up in the index; on a hit, seek to the stored
offset and decode one record, which must be a `Set` for exactly that key. -/
def get (s : KvStore) (key : Key) : Except KvStoreError (Option Value) × KvStore :=
  match idxLookup s.index key with
  | none => (.ok none, s)
  | some log_pointer =>
    match decodeCmd (s.file.drop log_pointer) with
    | some (.Set key_in_log value, n) =>
      if key_in_log = key then
        (.ok (some value), { s with cursor := log_pointer + n })
      else
        (.error .GetError, { s with cursor := log_pointer + n })
    | some (.Rm _, n) => (.error .GetError, { s with cursor := log_pointer + n })
    | none => (.error .GetError, { s with cursor := log_pointer })

/-- `KvStore::set`: append `Set(key, value)` to the log, update the index,
and when the insert replaced a previous entry, count one garbage record and
run the compaction check. -/
def set (s : KvStore) (key : Key) (value : Value) : Except KvStoreError Unit × KvStore :=
  let wr := write_log s (.Set key value)
  if (idxLookup wr.2.index key).isSome then
    maybe_compact_logs
      { wr.2 with index := idxInsert wr.2.index key wr.1, garbage := wr.2.garbage + 1 }
  else
    (.ok (), { wr.2 with index := idxInsert wr.2.index key wr.1 })

/-- `KvStore::remove`: fail with `RmKeyNotFoundError` when the key is absent;
otherwise append `Rm(key)`, delete the index entry, count one garbage record
and run the compaction check. -/
def remove (s : KvStore) (key : Key) : Except KvStoreError Unit × KvStore :=
  if idxContains s.index key = false then
    (.error .RmKeyNotFoundError, s)
  else
    let wr := write_log s (.Rm key)
    maybe_compact_logs
      { wr.2 with index := idxRemove wr.2.index key, garbage := wr.2.garbage + 1 }

/-- The store state `KvStore::open` builds right after replay, before its
compaction check: the replayed index and garbage counter over the opened log. -/
def replayedStore (file : List Nat) (comp : Option (List Nat)) : KvStore :=
  { index := (replay file).1, file := file, comp := comp,
    garbage := (replay file).2, cursor := 0 }

/-- `KvStore::open`: open or create `kvs.log`, replay it from offset 0, then
run the compaction check before returning.  `file` is the current contents of
`kvs.log` (`[]` when the open just created it) and `comp` the contents of a
`kvs-comp.log` already present in the directory, if any.  When the compaction
check fails the store is dropped and the error returned. -/
def openStore (file : List Nat) (comp : Option (List Nat)) : Except KvStoreError KvStore :=
  match maybe_compact_logs (replayedStore file comp) with
  | (.ok _, s₁) => .ok s₁
  | (.error e, _) => .error e

/-- The engine states reachable through the public interface: a successful
`open` of any directory contents, followed by any sequence of successful
`get` / `set` / `remove` calls. -/
inductive Reachable : KvStore → Prop where
  | openStore {file : List Nat} {comp : Option (List Nat)} {s : KvStore} :
      openStore file comp = .ok s → Reachable s
  | set {s s' : KvStore} {k : Key} {v : Value} :
      Reachable s → set s k v = (.ok (), s') → Reachable s'
  | remove {s s' : KvStore} {k : Key} :
      Reachable s → remove s k = (.ok (), s') → Reachable s'
  | get {s s' : KvStore} {k : Key} {r : Option Value} :
      Reachable s → get s k = (.ok r, s') → Reachable s'

/-- One replay step on the index: `index[key] = offset` on a `Set`, deletion
on a `Remove` (the loop body of `open`). -/
def applyRecord (idx : Index) : Nat × KvCommand → Index
  | (p, .Set k _) => idxInsert idx k p
  | (_, .Rm k) => idxRemove idx k

/-- The index after replaying a record list on top of `idx`. -/
def foldIdx (idx : Index) (recs : List (Nat × KvCommand)) : Index :=
  recs.foldl applyRecord idx

/-- The garbage counted while replaying a record list on top of `idx`: one
for every `Set` that replaces a live entry and one for every `Remove`. -/
def gGainRec (idx : Index) : List (Nat × KvCommand) → Nat
  | [] => 0
  | (p, .Set k _) :: t =>
    (if (idxLookup idx k).isSome then 1 else 0) + gGainRec (idxInsert idx k p) t
  | (_, .Rm k) :: t => 1 + gGainRec (idxRemove idx k) t

theorem replayGo_eq_fold (fuel : Nat) (rest : List Nat) (pos : Nat)
    (idx : Index) (g : Nat) :
    replayGo fuel rest pos idx g =
      (foldIdx idx (scanGo fuel rest pos), g + gGainRec idx (scanGo fuel rest pos)) := by
  induction fuel generalizing rest pos idx g with
  | zero => simp [replayGo, scanGo, foldIdx, gGainRec]
  | succ f ih =>
    cases hd : decodeCmd rest with
    | none => simp [replayGo, scanGo, hd, foldIdx, gGainRec]
    | some cn =>
      obtain ⟨c, n⟩ := cn
      cases c with
      | Set k v =>
        simp only [replayGo, scanGo, hd]
        rw [ih]
        simp only [foldIdx, List.foldl_cons, applyRecord, gGainRec, Prod.mk.injEq]
        refine ⟨trivial, ?_⟩
        by_cases hs : (idxLookup idx k).isSome
        · simp only [if_pos hs]
          omega
        · simp only [if_neg hs]
          omega
      | Rm k =>
        simp only [replayGo, scanGo, hd]
        rw [ih]
        simp only [foldIdx, List.foldl_cons, applyRecord, gGainRec, Prod.mk.injEq]
        exact ⟨trivial, by omega⟩

/-- Whether a record mutates the key `k`. -/
def touchesKey (c : KvCommand) (k : Key) : Bool :=
  match c with
  | .Set k' _ => decide (k' = k)
  | .Rm k' => decide (k' = k)

/-- The offset the spec assigns to `k` after a record list: the offset of the
last mutation of `k` when that mutation is a `Set`, and nothing otherwise
("a key is present in the Index if and only if its latest mutation recorded
in the Log was a `Set`, mapped to that record's offset"). -/
def specLast (recs : List (Nat × KvCommand)) (k : Key) : Option Nat :=
  match (recs.filter (fun r => touchesKey r.2 k)).getLast? with
  | some (p, .Set _ _) => some p
  | _ => none

theorem idxLookup_foldIdx (recs : List (Nat × KvCommand)) (idx : Index) (k : Key) :
    idxLookup (foldIdx idx recs) k =
      if recs.filter (fun r => touchesKey r.2 k) = [] then idxLookup idx k
      else specLast recs k := by
  induction recs generalizing idx with
  | nil => simp [foldIdx, specLast]
  | cons r t ih =>
    obtain ⟨p, c⟩ := r
    have hstep : foldIdx idx ((p, c) :: t) = foldIdx (applyRecord idx (p, c)) t := rfl
    rw [hstep, ih]
    by_cases hc : touchesKey c k = true
    · have hfil : ((p, c) :: t).filter (fun r => touchesKey r.2 k)
          = (p, c) :: t.filter (fun r => touchesKey r.2 k) := by
        rw [List.filter_cons, if_pos hc]
      by_cases hft : t.filter (fun r => touchesKey r.2 k) = []
      · rw [if_pos hft, if_neg (by rw [hfil, hft]; exact List.cons_ne_nil _ _)]
        have hsl : specLast ((p, c) :: t) k =
            (match c with | .Set _ _ => some p | .Rm _ => none) := by
          unfold specLast
          rw [hfil, hft]
          cases c <;> rfl
        rw [hsl]
        cases c with
        | Set k' v =>
          have hk : k' = k := by simpa [touchesKey] using hc
          subst hk
          exact idxLookup_insert_self idx k' p
        | Rm k' =>
          have hk : k' = k := by simpa [touchesKey] using hc
          subst hk
          exact idxLookup_remove_self idx k'
      · rw [if_neg hft, if_neg (by rw [hfil]; exact List.cons_ne_nil _ _)]
        have hsl : specLast ((p, c) :: t) k = specLast t k := by
          unfold specLast
          rw [hfil]
          obtain ⟨x, xs, hx⟩ := List.exists_cons_of_ne_nil hft
          rw [hx, List.getLast?_cons_cons]
        rw [hsl]
    · have hfil : ((p, c) :: t).filter (fun r => touchesKey r.2 k)
          = t.filter (fun r => touchesKey r.2 k) := by
        rw [List.filter_cons, if_neg hc]
      rw [hfil]
      have hsl : specLast ((p, c) :: t) k = specLast t k := by
        unfold specLast
        rw [hfil]
      rw [hsl]
      have happly : idxLookup (applyRecord idx (p, c)) k = idxLookup idx k := by
        cases c with
        | Set k' v =>
          have hk : k' ≠ k := by simpa [touchesKey] using hc
          exact idxLookup_insert_ne idx k' k p (Ne.symm hk)
        | Rm k' =>
          have hk : k' ≠ k := by simpa [touchesKey] using hc
          exact idxLookup_remove_ne idx k' k (Ne.symm hk)
      rw [happly]

theorem specLast_of_filter_nil {recs : List (Nat × KvCommand)} {k : Key}
    (h : recs.filter (fun r => touchesKey r.2 k) = []) : specLast recs k = none := by
  unfold specLast
  rw [h]
  rfl

/-- The index built by replay agrees with the spec characterization: a key is
mapped exactly when its latest mutation in the record list is a `Set`, to
that record's offset. -/
theorem idxLookup_foldIdx_nil (recs : List (Nat × KvCommand)) (k : Key) :
    idxLookup (foldIdx [] recs) k = specLast recs k := by
  rw [idxLookup_foldIdx]
  by_cases h : recs.filter (fun r => touchesKey r.2 k) = []
  · rw [if_pos h, specLast_of_filter_nil h]
    rfl
  · rw [if_neg h]

/-- The removes that hit a live key while replaying on top of `idx`
(operational form, following the running index). -/
def liveRmOp (idx : Index) : List (Nat × KvCommand) → Nat
  | [] => 0
  | (p, .Set k _) :: t => liveRmOp (idxInsert idx k p) t
  | (_, .Rm k) :: t =>
    (if (idxLookup idx k).isSome then 1 else 0) + liveRmOp (idxRemove idx k) t

/-- The removes that hit a live key, in spec terms: a `Remove` record counts
when the key's latest mutation among the preceding records is a `Set`. -/
def liveRmSpecGo (pre : List (Nat × KvCommand)) : List (Nat × KvCommand) → Nat
  | [] => 0
  | (p, .Set k v) :: t => liveRmSpecGo (pre ++ [(p, .Set k v)]) t
  | (p, .Rm k) :: t =>
    (if (specLast pre k).isSome then 1 else 0) + liveRmSpecGo (pre ++ [(p, .Rm k)]) t

/-- The number of `Remove` records of a record list that tombstone a live key. -/
def liveRmCount (recs : List (Nat × KvCommand)) : Nat :=
  liveRmSpecGo [] recs

/-- The number of records whose offset no index entry points to ("records in
the log that are not reachable from `index`"). -/
def unreachableCount (recs : List (Nat × KvCommand)) (idx : Index) : Nat :=
  recs.countP (fun r => !(idx.any (fun e => e.2 == r.1)))

theorem nodupKeys_foldIdx (recs : List (Nat × KvCommand)) (idx : Index)
    (hnd : nodupKeys idx) : nodupKeys (foldIdx idx recs) := by
  induction recs generalizing idx with
  | nil => exact hnd
  | cons r t ih =>
    obtain ⟨p, c⟩ := r
    cases c with
    | Set k v => exact ih (idxInsert idx k p) (nodupKeys_idxInsert idx k p hnd)
    | Rm k => exact ih (idxRemove idx k) (nodupKeys_idxRemove idx k hnd)

theorem gain_eq (recs : List (Nat × KvCommand)) (idx : Index) (hnd : nodupKeys idx) :
    gGainRec idx recs + liveRmOp idx recs + (foldIdx idx recs).length
      = idx.length + recs.length := by
  induction recs generalizing idx with
  | nil => simp [gGainRec, liveRmOp, foldIdx]
  | cons r t ih =>
    obtain ⟨p, c⟩ := r
    cases c with
    | Set k v =>
      have hstep : foldIdx idx ((p, .Set k v) :: t) = foldIdx (idxInsert idx k p) t := rfl
      have hlen := length_idxInsert idx k p
      have := ih (idxInsert idx k p) (nodupKeys_idxInsert idx k p hnd)
      simp only [gGainRec, liveRmOp, hstep, List.length_cons]
      by_cases hs : (idxLookup idx k).isSome
      · rw [if_pos hs] at hlen ⊢
        omega
      · rw [if_neg hs] at hlen ⊢
        omega
    | Rm k =>
      have hstep : foldIdx idx ((p, .Rm k) :: t) = foldIdx (idxRemove idx k) t := rfl
      have hlen := length_idxRemove idx k hnd
      have := ih (idxRemove idx k) (nodupKeys_idxRemove idx k hnd)
      simp only [gGainRec, liveRmOp, hstep, List.length_cons]
      by_cases hs : (idxLookup idx k).isSome
      · rw [if_pos hs] at hlen ⊢
        omega
      · rw [if_neg hs] at hlen ⊢
        omega

theorem liveRmSpecGo_eq_op (rest pre : List (Nat × KvCommand)) :
    liveRmSpecGo pre rest = liveRmOp (foldIdx [] pre) rest := by
  induction rest generalizing pre with
  | nil => rfl
  | cons r t ih =>
    obtain ⟨p, c⟩ := r
    cases c with
    | Set k v =>
      have hfold : foldIdx [] (pre ++ [(p, KvCommand.Set k v)])
          = idxInsert (foldIdx [] pre) k p := by
        simp [foldIdx, List.foldl_append, applyRecord]
      simp only [liveRmSpecGo, liveRmOp, ih (pre ++ [(p, KvCommand.Set k v)]), hfold]
    | Rm k =>
      have hfold : foldIdx [] (pre ++ [(p, KvCommand.Rm k)])
          = idxRemove (foldIdx [] pre) k := by
        simp [foldIdx, List.foldl_append, applyRecord]
      simp only [liveRmSpecGo, liveRmOp, ih (pre ++ [(p, KvCommand.Rm k)]), hfold,
        idxLookup_foldIdx_nil]

theorem replay_eq (file : List Nat) :
    replay file =
      (foldIdx [] (scanRecords file), gGainRec [] (scanRecords file)) := by
  unfold replay scanRecords
  rw [replayGo_eq_fold]
  simp

/-- The index/log consistency invariant: every index entry points at an
offset of the log where a `Set` record for exactly that key decodes. -/
def Inv (s : KvStore) : Prop :=
  ∀ e ∈ s.index, ∃ v n, decodeCmd (s.file.drop e.2) = some (.Set e.1 v, n)

theorem lt_length_of_decode_some {file : List Nat} {p : Nat} {x : KvCommand × Nat}
    (h : decodeCmd (file.drop p) = some x) : p < file.length := by
  by_contra hge
  push_neg at hge
  rw [List.drop_eq_nil_of_le hge] at h
  exact absurd h (by simp [decodeCmd_nil])

theorem replayGo_inv (fuel : Nat) (file rest : List Nat) (pos : Nat)
    (idx : Index) (g : Nat) (hrest : rest = file.drop pos)
    (hidx : ∀ e ∈ idx, ∃ v n, decodeCmd (file.drop e.2) = some (.Set e.1 v, n)) :
    ∀ e ∈ (replayGo fuel rest pos idx g).1,
      ∃ v n, decodeCmd (file.drop e.2) = some (.Set e.1 v, n) := by
  induction fuel generalizing rest pos idx g with
  | zero => exact hidx
  | succ f ih =>
    cases hd : decodeCmd rest with
    | none =>
      simp only [replayGo, hd]
      exact hidx
    | some cn =>
      obtain ⟨c, n⟩ := cn
      have hdrop : rest.drop n = file.drop (pos + n) := by
        rw [hrest, List.drop_drop, Nat.add_comm]
      cases c with
      | Set k v =>
        simp only [replayGo, hd]
        refine ih (rest.drop n) (pos + n) (idxInsert idx k pos) _ hdrop ?_
        intro e he
        rcases mem_idxInsert he with he' | he'
        · subst he'
          refine ⟨v, n, ?_⟩
          rw [← hrest]
          exact hd
        · exact hidx e he'
      | Rm k =>
        simp only [replayGo, hd]
        refine ih (rest.drop n) (pos + n) (idxRemove idx k) _ hdrop ?_
        intro e he
        exact hidx e (mem_idxRemove he)

theorem replay_inv (file : List Nat) :
    ∀ e ∈ (replay file).1, ∃ v n, decodeCmd (file.drop e.2) = some (.Set e.1 v, n) := by
  unfold replay
  exact replayGo_inv file.length file file 0 [] 0 (by simp) (by simp)

/-- Whether the record at offset `p` of `file` decodes as a `Set` (of any
key), the condition the compaction rewrite loop checks. -/
def isSetAt (file : List Nat) (p : Nat) : Bool :=
  match decodeCmd (file.drop p) with
  | some (.Set _ _, _) => true
  | _ => false

theorem compactGo_isSome_iff (file : List Nat) (entries : List (Key × Nat)) (np : Nat) :
    (compactGo file entries np).1.isSome ↔ ∀ e ∈ entries, isSetAt file e.2 = true := by
  induction entries generalizing np with
  | nil => simp [compactGo]
  | cons e t ih =>
    obtain ⟨k, p⟩ := e
    cases hd : decodeCmd (file.drop p) with
    | none =>
      simp only [compactGo, hd]
      constructor
      · intro h
        exact absurd h (by simp)
      · intro h
        have := h (k, p) (List.mem_cons_self _ _)
        simp [isSetAt, hd] at this
    | some cn =>
      obtain ⟨c, n⟩ := cn
      cases c with
      | Rm k' =>
        simp only [compactGo, hd]
        constructor
        · intro h
          exact absurd h (by simp)
        · intro h
          have := h (k, p) (List.mem_cons_self _ _)
          simp [isSetAt, hd] at this
      | Set k' v =>
        have hhead : isSetAt file p = true := by simp [isSetAt, hd]
        cases hrec : compactGo file t (np + (encodeCmd (.Set k v)).length) with
        | mk o w' =>
          have ihnp := ih (np + (encodeCmd (.Set k v)).length)
          rw [hrec] at ihnp
          cases o with
          | none =>
            simp only [compactGo, hd, hrec]
            constructor
            · intro h
              exact absurd h (by simp)
            · intro h
              have : ∀ e ∈ t, isSetAt file e.2 = true :=
                fun e he => h e (List.mem_cons_of_mem _ he)
              have := ihnp.mpr this
              exact absurd this (by simp)
          | some rest' =>
            simp only [compactGo, hd, hrec]
            constructor
            · intro _
              intro e he
              rcases List.mem_cons.mp he with he' | he'
              · rw [he']
                exact hhead
              · exact (ihnp.mp (by simp)) e he'
            · intro _
              simp
  
theorem compactGo_mem {file : List Nat} {entries : List (Key × Nat)} {np : Nat}
    {idx' : List (Key × Nat)} {w : List Nat}
    (h : compactGo file entries np = (some idx', w)) :
    ∀ e ∈ idx', np ≤ e.2 ∧ ∃ v, ∀ tail : List Nat,
      decodeCmd ((w ++ tail).drop (e.2 - np)) =
        some (.Set e.1 v, (encodeCmd (.Set e.1 v)).length) := by
  induction entries generalizing np idx' w with
  | nil =>
    simp only [compactGo, Prod.mk.injEq, Option.some.injEq] at h
    rw [← h.1]
    intro e he
    simp at he
  | cons e₀ t ih =>
    obtain ⟨k, p⟩ := e₀
    cases hd : decodeCmd (file.drop p) with
    | none =>
      simp [compactGo, hd] at h
    | some cn =>
      obtain ⟨c, n⟩ := cn
      cases c with
      | Rm k' => simp [compactGo, hd] at h
      | Set k' v₀ =>
        cases hrec : compactGo file t (np + (encodeCmd (.Set k v₀)).length) with
        | mk o w' =>
          cases o with
          | none => simp [compactGo, hd, hrec] at h
          | some rest' =>
            simp only [compactGo, hd, hrec, Prod.mk.injEq, Option.some.injEq] at h
            obtain ⟨hidx, hw⟩ := h
            subst hidx
            subst hw
            intro e he
            rcases List.mem_cons.mp he with he' | he'
            · subst he'
              refine ⟨Nat.le_refl np, v₀, fun tail => ?_⟩
              simp only [Nat.sub_self, List.drop_zero, List.append_assoc]
              exact decodeCmd_encodeCmd (.Set k v₀) (w' ++ tail)
            · obtain ⟨hle, v, hdec⟩ := ih hrec e he'
              refine ⟨by omega, v, fun tail => ?_⟩
              have harith : e.2 - np = (encodeCmd (.Set k v₀)).length
                  + (e.2 - (np + (encodeCmd (.Set k v₀)).length)) := by omega
              rw [List.append_assoc, harith, List.drop_append]
              exact hdec tail

theorem compactGo_lookup {file : List Nat} {entries : List (Key × Nat)} {np : Nat}
    {idx' : List (Key × Nat)} {w : List Nat}
    (h : compactGo file entries np = (some idx', w)) (k : Key) (p : Nat)
    (hk : idxLookup entries k = some p) :
    ∃ a v m q, decodeCmd (file.drop p) = some (.Set a v, m) ∧
      idxLookup idx' k = some q ∧ np ≤ q ∧
      ∀ tail : List Nat, decodeCmd ((w ++ tail).drop (q - np)) =
        some (.Set k v, (encodeCmd (.Set k v)).length) := by
  induction entries generalizing np idx' w with
  | nil => simp [idxLookup] at hk
  | cons e₀ t ih =>
    obtain ⟨k₀, p₀⟩ := e₀
    cases hd : decodeCmd (file.drop p₀) with
    | none => simp [compactGo, hd] at h
    | some cn =>
      obtain ⟨c, n⟩ := cn
      cases c with
      | Rm k' => simp [compactGo, hd] at h
      | Set k' v₀ =>
        cases hrec : compactGo file t (np + (encodeCmd (.Set k₀ v₀)).length) with
        | mk o w' =>
          cases o with
          | none => simp [compactGo, hd, hrec] at h
          | some rest' =>
            simp only [compactGo, hd, hrec, Prod.mk.injEq, Option.some.injEq] at h
            obtain ⟨hidx, hw⟩ := h
            subst hidx
            subst hw
            simp only [idxLookup] at hk
            by_cases hkk : k₀ = k
            · rw [if_pos hkk] at hk
              simp only [Option.some.injEq] at hk
              subst hk
              subst hkk
              refine ⟨k', v₀, n, np, hd, ?_, Nat.le_refl np, fun tail => ?_⟩
              · simp [idxLookup]
              · simp only [Nat.sub_self, List.drop_zero, List.append_assoc]
                exact decodeCmd_encodeCmd (.Set k₀ v₀) (w' ++ tail)
            · rw [if_neg hkk] at hk
              obtain ⟨a, v, m, q, hdec, hlook, hle, htail⟩ := ih hrec hk
              refine ⟨a, v, m, q, hdec, ?_, by omega, fun tail => ?_⟩
              · simp only [idxLookup, if_neg hkk]
                exact hlook
              · have harith : q - np = (encodeCmd (.Set k₀ v₀)).length
                    + (q - (np + (encodeCmd (.Set k₀ v₀)).length)) := by omega
                rw [List.append_assoc, harith, List.drop_append]
                exact htail tail

/-- The live `Set` records of the index, re-encoded in index order: the exact
bytes the compaction rewrite produces. -/
def liveRewrite (file : List Nat) : List (Key × Nat) → List Nat
  | [] => []
  | (k, p) :: t =>
    (match decodeCmd (file.drop p) with
     | some (.Set _ v, _) => encodeCmd (.Set k v)
     | _ => []) ++ liveRewrite file t

theorem compactGo_w {file : List Nat} {entries : List (Key × Nat)} {np : Nat}
    {idx' : List (Key × Nat)} {w : List Nat}
    (h : compactGo file entries np = (some idx', w)) :
    w = liveRewrite file entries := by
  induction entries generalizing np idx' w with
  | nil =>
    simp only [compactGo, Prod.mk.injEq, Option.some.injEq] at h
    rw [← h.2]
    rfl
  | cons e₀ t ih =>
    obtain ⟨k, p⟩ := e₀
    cases hd : decodeCmd (file.drop p) with
    | none => simp [compactGo, hd] at h
    | some cn =>
      obtain ⟨c, n⟩ := cn
      cases c with
      | Rm k' => simp [compactGo, hd] at h
      | Set k' v₀ =>
        cases hrec : compactGo file t (np + (encodeCmd (.Set k v₀)).length) with
        | mk o w' =>
          cases o with
          | none => simp [compactGo, hd, hrec] at h
          | some rest' =>
            simp only [compactGo, hd, hrec, Prod.mk.injEq, Option.some.injEq] at h
            rw [← h.2]
            simp only [liveRewrite, hd]
            rw [ih hrec]

theorem maybe_compact_skip {s : KvStore} (h : s.garbage < COMPACTION_THRESHOLD) :
    maybe_compact_logs s = (.ok (), s) := by
  unfold maybe_compact_logs
  rw [if_pos h]

theorem maybe_compact_ok_garbage {s s' : KvStore} {u : Unit}
    (h : maybe_compact_logs s = (.ok u, s')) :
    (s.garbage < COMPACTION_THRESHOLD ∧ s' = s) ∨ s'.garbage = 0 := by
  unfold maybe_compact_logs at h
  by_cases hg : s.garbage < COMPACTION_THRESHOLD
  · rw [if_pos hg] at h
    simp only [Prod.mk.injEq] at h
    exact Or.inl ⟨hg, h.2.symm⟩
  · rw [if_neg hg] at h
    cases hc : compactGo s.file s.index 0 with
    | mk o w =>
      rw [hc] at h
      cases o with
      | none => simp at h
      | some idx' =>
        simp only [Prod.mk.injEq] at h
        rw [← h.2]
        exact Or.inr rfl

theorem maybe_compact_error_frame {s s' : KvStore} {e : KvStoreError}
    (h : maybe_compact_logs s = (.error e, s')) :
    e = .CompactionError ∧ s'.index = s.index ∧ s'.file = s.file ∧
      s'.garbage = s.garbage ∧ s'.cursor = s.cursor ∧
      ¬ s.garbage < COMPACTION_THRESHOLD ∧
      ∃ leftover, s'.comp = some leftover := by
  unfold maybe_compact_logs at h
  by_cases hg : s.garbage < COMPACTION_THRESHOLD
  · rw [if_pos hg] at h
    simp at h
  · rw [if_neg hg] at h
    cases hc : compactGo s.file s.index 0 with
    | mk o w =>
      rw [hc] at h
      cases o with
      | none =>
        simp only [Prod.mk.injEq] at h
        rw [← h.2]
        refine ⟨by simpa using h.1.symm, rfl, rfl, rfl, rfl, hg, _, rfl⟩
      | some idx' => simp at h

theorem maybe_compact_ok_of_inv {s : KvStore} (hInv : Inv s) :
    ∃ s', maybe_compact_logs s = (.ok (), s') := by
  by_cases hg : s.garbage < COMPACTION_THRESHOLD
  · exact ⟨s, maybe_compact_skip hg⟩
  · have hall : ∀ e ∈ s.index, isSetAt s.file e.2 = true := by
      intro e he
      obtain ⟨v, n, hdec⟩ := hInv e he
      simp [isSetAt, hdec]
    have hsome : (compactGo s.file s.index 0).1.isSome :=
      (compactGo_isSome_iff s.file s.index 0).mpr hall
    cases hc : compactGo s.file s.index 0 with
    | mk o w =>
      cases o with
      | none =>
        rw [hc] at hsome
        simp at hsome
      | some idx' =>
        refine ⟨{ index := idx',
                  file := w ++ (s.comp.getD []).drop w.length,
                  comp := none, garbage := 0, cursor := 0 }, ?_⟩
        unfold maybe_compact_logs
        rw [if_neg hg, hc]

theorem maybe_compact_inv {s : KvStore} (hInv : Inv s) :
    Inv (maybe_compact_logs s).2 := by
  by_cases hg : s.garbage < COMPACTION_THRESHOLD
  · rw [maybe_compact_skip hg]
    exact hInv
  · unfold maybe_compact_logs
    rw [if_neg hg]
    cases hc : compactGo s.file s.index 0 with
    | mk o w =>
      cases o with
      | none =>
        simp only
        exact hInv
      | some idx' =>
        simp only
        intro e he
        obtain ⟨-, v, hdec⟩ := compactGo_mem hc e he
        refine ⟨v, (encodeCmd (.Set e.1 v)).length, ?_⟩
        have := hdec ((s.comp.getD []).drop w.length)
        simpa using this

theorem get_frame_all (s : KvStore) (k : Key) :
    (get s k).2.index = s.index ∧ (get s k).2.file = s.file ∧
      (get s k).2.comp = s.comp ∧ (get s k).2.garbage = s.garbage := by
  unfold get
  refine ⟨?_, ?_, ?_, ?_⟩ <;> (repeat' split) <;> rfl

theorem get_ok_of_inv {s : KvStore} (hInv : Inv s) (k : Key) :
    ∃ r, (get s k).1 = .ok r := by
  unfold get
  split
  · exact ⟨none, rfl⟩
  · rename_i p heq
    obtain ⟨v, n, hdec⟩ := hInv (k, p) (idxLookup_mem heq)
    simp only at hdec
    simp only [hdec]
    exact ⟨some v, by simp⟩

theorem inv_entries_append {file : List Nat} {idx : Index} (enc : List Nat)
    (h : ∀ e ∈ idx, ∃ v n, decodeCmd (file.drop e.2) = some (.Set e.1 v, n)) :
    ∀ e ∈ idx, ∃ v n, decodeCmd ((file ++ enc).drop e.2) = some (.Set e.1 v, n) := by
  intro e he
  obtain ⟨v, n, hdec⟩ := h e he
  refine ⟨v, n, ?_⟩
  rw [List.drop_append_of_le_length (Nat.le_of_lt (lt_length_of_decode_some hdec))]
  exact decodeCmd_append hdec

theorem set_inv {s : KvStore} (hInv : Inv s) (k : Key) (v : Value) :
    Inv (set s k v).2 := by
  have hnew : ∀ e ∈ idxInsert s.index k s.file.length,
      ∃ v' n, decodeCmd ((s.file ++ encodeCmd (.Set k v)).drop e.2)
        = some (.Set e.1 v', n) := by
    intro e he
    rcases mem_idxInsert he with he' | he'
    · subst he'
      refine ⟨v, (encodeCmd (.Set k v)).length, ?_⟩
      rw [List.drop_left]
      have := decodeCmd_encodeCmd (.Set k v) []
      simpa using this
    · exact inv_entries_append _ hInv e he'
  unfold set
  simp only [write_log]
  by_cases hs : (idxLookup s.index k).isSome
  · rw [if_pos hs]
    exact maybe_compact_inv hnew
  · rw [if_neg hs]
    exact hnew

theorem remove_inv {s : KvStore} (hInv : Inv s) (k : Key) :
    Inv (remove s k).2 := by
  unfold remove
  by_cases hc : idxContains s.index k = false
  · rw [if_pos hc]
    exact hInv
  · rw [if_neg hc]
    simp only [write_log]
    refine maybe_compact_inv ?_
    intro e he
    exact inv_entries_append _ hInv e (mem_idxRemove he)

theorem openStore_state {f : List Nat} {c : Option (List Nat)} {s : KvStore}
    (h : openStore f c = .ok s) :
    maybe_compact_logs (replayedStore f c) = (.ok (), s) := by
  unfold openStore at h
  cases hm : maybe_compact_logs (replayedStore f c) with
  | mk r s₁ =>
    rw [hm] at h
    cases r with
    | ok u =>
      simp only [Except.ok.injEq] at h
      rw [h]
    | error e => simp at h

theorem replayedStore_inv (f : List Nat) (c : Option (List Nat)) :
    Inv (replayedStore f c) := by
  intro e he
  exact replay_inv f e he

theorem openStore_inv {f : List Nat} {c : Option (List Nat)} {s : KvStore}
    (h : openStore f c = .ok s) : Inv s := by
  have hm := openStore_state h
  have := maybe_compact_inv (replayedStore_inv f c)
  rw [hm] at this
  exact this

/-- Every reachable state satisfies the index/log consistency invariant. -/
theorem reachable_inv {s : KvStore} (h : Reachable s) : Inv s := by
  induction h with
  | openStore ho => exact openStore_inv ho
  | set _ hs ih =>
    rename_i s₀ s' k v _
    have := set_inv ih k v
    rw [hs] at this
    exact this
  | remove _ hr ih =>
    rename_i s₀ s' k _
    have := remove_inv ih k
    rw [hr] at this
    exact this
  | get _ hg ih =>
    rename_i s₀ s' k r _
    have hidx : s'.index = s₀.index := by
      have h1 := (get_frame_all s₀ k).1
      rw [hg] at h1
      exact h1
    have hfile : s'.file = s₀.file := by
      have h1 := (get_frame_all s₀ k).2.1
      rw [hg] at h1
      exact h1
    intro e he
    rw [hfile]
    exact ih e (hidx ▸ he)

theorem compactGo_lookup_none {file : List Nat} {entries : List (Key × Nat)}
    {np : Nat} {idx' : List (Key × Nat)} {w : List Nat}
    (h : compactGo file entries np = (some idx', w)) (k : Key)
    (hk : idxLookup entries k = none) : idxLookup idx' k = none := by
  induction entries generalizing np idx' w with
  | nil =>
    simp only [compactGo, Prod.mk.injEq, Option.some.injEq] at h
    rw [← h.1]
    rfl
  | cons e₀ t ih =>
    obtain ⟨k₀, p₀⟩ := e₀
    cases hd : decodeCmd (file.drop p₀) with
    | none => simp [compactGo, hd] at h
    | some cn =>
      obtain ⟨c, n⟩ := cn
      cases c with
      | Rm k' => simp [compactGo, hd] at h
      | Set k' v₀ =>
        cases hrec : compactGo file t (np + (encodeCmd (.Set k₀ v₀)).length) with
        | mk o w' =>
          cases o with
          | none => simp [compactGo, hd, hrec] at h
          | some rest' =>
            simp only [compactGo, hd, hrec, Prod.mk.injEq, Option.some.injEq] at h
            obtain ⟨hidx, -⟩ := h
            subst hidx
            simp only [idxLookup] at hk ⊢
            by_cases hkk : k₀ = k
            · rw [if_pos hkk] at hk
              exact absurd hk (by simp)
            · rw [if_neg hkk] at hk
              rw [if_neg hkk]
              exact ih hrec hk

/-- Every reachable state has a garbage counter below the compaction
threshold. -/
theorem reachable_garbage_lt {s : KvStore} (h : Reachable s) :
    s.garbage < COMPACTION_THRESHOLD := by
  induction h with
  | openStore ho =>
    have hm := openStore_state ho
    rcases maybe_compact_ok_garbage hm with ⟨hg, he⟩ | hg
    · rw [he]
      exact hg
    · rw [hg]
      unfold COMPACTION_THRESHOLD
      omega
  | set _ hs ih =>
    rename_i s₀ s' k v _
    unfold set at hs
    simp only [write_log] at hs
    by_cases hcond : (idxLookup s₀.index k).isSome
    · rw [if_pos hcond] at hs
      rcases maybe_compact_ok_garbage hs with ⟨hg, he⟩ | hg
      · rw [he]
        exact hg
      · rw [hg]
        unfold COMPACTION_THRESHOLD
        omega
    · rw [if_neg hcond] at hs
      simp only [Prod.mk.injEq] at hs
      rw [← hs.2]
      exact ih
  | remove _ hr ih =>
    rename_i s₀ s' k _
    unfold remove at hr
    by_cases hcond : idxContains s₀.index k = false
    · rw [if_pos hcond] at hr
      simp at hr
    · rw [if_neg hcond] at hr
      simp only [write_log] at hr
      rcases maybe_compact_ok_garbage hr with ⟨hg, he⟩ | hg
      · rw [he]
        exact hg
      · rw [hg]
        unfold COMPACTION_THRESHOLD
        omega
  | get _ hg ih =>
    rename_i s₀ s' k r _
    have h1 := (get_frame_all s₀ k).2.2.2
    rw [hg] at h1
    rw [h1]
    exact ih

theorem get_some_of {s : KvStore} {k : Key} {p n : Nat} {v : Value}
    (hl : idxLookup s.index k = some p)
    (hd : decodeCmd (s.file.drop p) = some (.Set k v, n)) :
    (get s k).1 = .ok (some v) := by
  unfold get
  split
  · rename_i heq
    rw [hl] at heq
    exact absurd heq (by simp)
  · rename_i p' heq
    rw [hl] at heq
    simp only [Option.some.injEq] at heq
    subst heq
    simp only [hd]
    simp

theorem get_some_elim {s : KvStore} {k : Key} {v : Value}
    (h : (get s k).1 = .ok (some v)) :
    ∃ p n, idxLookup s.index k = some p ∧
      decodeCmd (s.file.drop p) = some (.Set k v, n) := by
  unfold get at h
  split at h
  · simp at h
  · rename_i p heq
    split at h
    · rename_i kl val n hd
      by_cases hk : kl = k
      · rw [if_pos hk] at h
        simp only [Except.ok.injEq, Option.some.injEq] at h
        subst hk
        subst h
        exact ⟨p, n, heq, hd⟩
      · rw [if_neg hk] at h
        simp at h
    · simp at h
    · simp at h

theorem maybe_compact_get {s s' : KvStore} {u : Unit} {k : Key} {p n : Nat}
    {v : Value} (hm : maybe_compact_logs s = (.ok u, s'))
    (hl : idxLookup s.index k = some p)
    (hd : decodeCmd (s.file.drop p) = some (.Set k v, n)) :
    (get s' k).1 = .ok (some v) := by
  by_cases hg : s.garbage < COMPACTION_THRESHOLD
  · rw [maybe_compact_skip hg] at hm
    simp only [Prod.mk.injEq] at hm
    rw [← hm.2]
    exact get_some_of hl hd
  · unfold maybe_compact_logs at hm
    rw [if_neg hg] at hm
    cases hc : compactGo s.file s.index 0 with
    | mk o w =>
      rw [hc] at hm
      cases o with
      | none => simp at hm
      | some idx' =>
        simp only [Prod.mk.injEq] at hm
        obtain ⟨a, v', m, q, hdec, hlook, -, htail⟩ := compactGo_lookup hc k p hl
        rw [hd] at hdec
        simp only [Option.some.injEq, Prod.mk.injEq, KvCommand.Set.injEq] at hdec
        obtain ⟨⟨ha, hv⟩, -⟩ := hdec
        subst ha
        subst hv
        rw [← hm.2]
        refine get_some_of (p := q) (n := (encodeCmd (.Set k v)).length) hlook ?_
    
  -- the new file is exactly the written bytes followed by the surviving tail
        have := htail ((s.comp.getD []).drop w.length)
        simpa using this

/-- The log bytes of a sequence of commands, each record appended in order. -/
def encodeAll : List KvCommand → List Nat
  | [] => []
  | c :: t => encodeCmd c ++ encodeAll t

theorem encodeCmd_length_pos (c : KvCommand) : 0 < (encodeCmd c).length := by
  cases c <;> simp [encodeCmd]

theorem scanGo_of_decode_none {rest : List Nat} {pos fuel : Nat}
    (h : decodeCmd rest = none) : scanGo fuel rest pos = [] := by
  cases fuel with
  | zero => rfl
  | succ f => simp [scanGo, h]

/-- The offsets at which the records of a command sequence land in the log. -/
def cmdsWithOffsets : List KvCommand → Nat → List (Nat × KvCommand)
  | [], _ => []
  | c :: t, pos => (pos, c) :: cmdsWithOffsets t (pos + (encodeCmd c).length)

theorem scanGo_encodeAll (cmds : List KvCommand) (extra : List Nat)
    (pos fuel : Nat) (hextra : decodeCmd extra = none)
    (hf : (encodeAll cmds).length + extra.length ≤ fuel) :
    scanGo fuel (encodeAll cmds ++ extra) pos = cmdsWithOffsets cmds pos := by
  induction cmds generalizing pos fuel with
  | nil =>
    simp only [encodeAll, List.nil_append, cmdsWithOffsets]
    exact scanGo_of_decode_none hextra
  | cons c t ih =>
    cases fuel with
    | zero =>
      exfalso
      have hpos := encodeCmd_length_pos c
      simp only [encodeAll, List.length_append, Nat.le_zero] at hf
      omega
    | succ f =>
      have hdec : decodeCmd ((encodeCmd c ++ encodeAll t) ++ extra)
          = some (c, (encodeCmd c).length) := by
        rw [List.append_assoc]
        exact decodeCmd_encodeCmd c _
      simp only [encodeAll, cmdsWithOffsets, scanGo, hdec]
      rw [List.append_assoc, List.drop_left]
      have hpos := encodeCmd_length_pos c
      simp only [encodeAll, List.length_append] at hf
      exact congrArg (fun l => (pos, c) :: l)
        (ih (pos + (encodeCmd c).length) f (by omega))

theorem scanRecords_encodeAll (cmds : List KvCommand) (extra : List Nat)
    (hextra : decodeCmd extra = none) :
    scanRecords (encodeAll cmds ++ extra) = cmdsWithOffsets cmds 0 := by
  unfold scanRecords
  exact scanGo_encodeAll cmds extra 0 _ hextra (by simp)

theorem scanRecords_encodeAll_nil (cmds : List KvCommand) :
    scanRecords (encodeAll cmds) = cmdsWithOffsets cmds 0 := by
  have := scanRecords_encodeAll cmds [] decodeCmd_nil
  simpa using this

theorem replay_append_junk (cmds : List KvCommand) (extra : List Nat)
    (hextra : decodeCmd extra = none) :
    replay (encodeAll cmds ++ extra) = replay (encodeAll cmds) := by
  rw [replay_eq, replay_eq, scanRecords_encodeAll cmds extra hextra,
    scanRecords_encodeAll_nil]

theorem openStore_isOk (f : List Nat) (c : Option (List Nat)) :
    ∃ s, openStore f c = .ok s := by
  obtain ⟨s', hm⟩ := maybe_compact_ok_of_inv (replayedStore_inv f c)
  refine ⟨s', ?_⟩
  unfold openStore
  rw [hm]

theorem maybe_compact_ok_garbage_eq {s s' : KvStore} {u : Unit}
    (h : maybe_compact_logs s = (.ok u, s')) :
    s'.garbage = if s.garbage < COMPACTION_THRESHOLD then s.garbage else 0 := by
  by_cases hg : s.garbage < COMPACTION_THRESHOLD
  · rw [maybe_compact_skip hg] at h
    simp only [Prod.mk.injEq] at h
    rw [if_pos hg, ← h.2]
  · unfold maybe_compact_logs at h
    rw [if_neg hg] at h
    cases hc : compactGo s.file s.index 0 with
    | mk o w =>
      rw [hc] at h
      cases o with
      | none => simp at h
      | some idx' =>
        simp only [Prod.mk.injEq] at h
        rw [if_neg hg, ← h.2]

theorem get_none_of {s : KvStore} {k : Key} (h : idxLookup s.index k = none) :
    (get s k).1 = .ok none := by
  unfold get
  split
  · rfl
  · rename_i p heq
    rw [h] at heq
    exact absurd heq (by simp)

theorem maybe_compact_lookup_none {s s' : KvStore} {u : Unit} {k : Key}
    (hm : maybe_compact_logs s = (.ok u, s'))
    (hk : idxLookup s.index k = none) : idxLookup s'.index k = none := by
  by_cases hg : s.garbage < COMPACTION_THRESHOLD
  · rw [maybe_compact_skip hg] at hm
    simp only [Prod.mk.injEq] at hm
    rw [← hm.2]
    exact hk
  · unfold maybe_compact_logs at hm
    rw [if_neg hg] at hm
    cases hc : compactGo s.file s.index 0 with
    | mk o w =>
      rw [hc] at hm
      cases o with
      | none => simp at hm
      | some idx' =>
        simp only [Prod.mk.injEq] at hm
        rw [← hm.2]
        exact compactGo_lookup_none hc k hk

/-- C1: for every store state, a successful `set(k, v)` followed by `get(k)`
returns `Some v`; since this holds whatever was previously stored under `k`
(and the appended record supersedes any earlier one), the most recent
successful `set` wins. -/
theorem kvC1_set_then_get (s s' : KvStore) (k : Key) (v : Value)
    (h : set s k v = (.ok (), s')) : (get s' k).1 = .ok (some v) := by
  unfold set at h
  simp only [write_log] at h
  have hdec : decodeCmd ((s.file ++ encodeCmd (.Set k v)).drop s.file.length)
      = some (.Set k v, (encodeCmd (.Set k v)).length) := by
    rw [List.drop_left]
    have h0 := decodeCmd_encodeCmd (.Set k v) []
    simpa using h0
  by_cases hcond : (idxLookup s.index k).isSome
  · rw [if_pos hcond] at h
    exact maybe_compact_get h (idxLookup_insert_self s.index k s.file.length) hdec
  · rw [if_neg hcond] at h
    simp only [Prod.mk.injEq] at h
    rw [← h.2]
    exact get_some_of (idxLookup_insert_self s.index k s.file.length) hdec

/-- The empty store produced by a first `open` of an empty directory. -/
def stC1 : KvStore :=
  { index := [], file := [], comp := none, garbage := 0, cursor := 0 }

/-- The store after `set("a", "1")` on the empty store. -/
def stC1' : KvStore :=
  { index := [("a", 0)], file := [0, 1, 97, 1, 49], comp := none,
    garbage := 0, cursor := 0 }

theorem kvC1_witness : (get stC1' "a").1 = .ok (some "1") :=
  kvC1_set_then_get stC1 stC1' "a" "1" (by rfl)

/-- C2 (amended): after replay, the index maps exactly the keys whose latest
decodable mutation is a `Set`, to that record's offset; the garbage counter
equals the number of decoded records minus the index size minus the number
of `Remove` records that tombstoned a live key (each such `Remove` makes two
records unreachable but is counted once). -/
theorem kvC2_replay_postcondition (file : List Nat) :
    (∀ k, idxLookup (replay file).1 k = specLast (scanRecords file) k) ∧
    (replay file).2 + liveRmCount (scanRecords file) + (replay file).1.length
      = (scanRecords file).length := by
  have hre := replay_eq file
  constructor
  · intro k
    have h1 : (replay file).1 = foldIdx [] (scanRecords file) := by rw [hre]
    rw [h1]
    exact idxLookup_foldIdx_nil (scanRecords file) k
  · have h1 : (replay file).1 = foldIdx [] (scanRecords file) := by rw [hre]
    have h2 : (replay file).2 = gGainRec [] (scanRecords file) := by rw [hre]
    have hg := gain_eq (scanRecords file) [] List.nodup_nil
    have hlr : liveRmCount (scanRecords file) = liveRmOp [] (scanRecords file) :=
      liveRmSpecGo_eq_op (scanRecords file) []
    rw [h1, h2, hlr]
    simpa using hg

/-- A log holding `Set("a", "1")` then `Rm("a")`. -/
def fileC2 : List Nat := encodeAll [.Set "a" "1", .Rm "a"]

theorem kvC2_counterexample :
    (replay fileC2).2 = 1 ∧
      unreachableCount (scanRecords fileC2) (replay fileC2).1 = 2 ∧
      (replay fileC2).2 ≠ unreachableCount (scanRecords fileC2) (replay fileC2).1 := by
  decide

/-- C3: a log made of valid records followed by a malformed or truncated
tail opens without an error, and replay of it stops at the junk: it produces
exactly the index and garbage counter of the well-formed part. -/
theorem kvC3_truncated_tail (cmds : List KvCommand) (junk : List Nat)
    (comp : Option (List Nat)) (hjunk : decodeCmd junk = none) :
    (∃ s, openStore (encodeAll cmds ++ junk) comp = .ok s) ∧
      replay (encodeAll cmds ++ junk) = replay (encodeAll cmds) :=
  ⟨openStore_isOk _ _, replay_append_junk cmds junk hjunk⟩

theorem kvC3_witness :
    decodeCmd [0] = none ∧
      ((∃ s, openStore (encodeAll [KvCommand.Set "a" "1"] ++ [0]) none = .ok s) ∧
        replay (encodeAll [KvCommand.Set "a" "1"] ++ [0])
          = replay (encodeAll [KvCommand.Set "a" "1"])) :=
  ⟨by decide, kvC3_truncated_tail [.Set "a" "1"] [0] none (by decide)⟩

/-- C9: in every reachable state, each index entry points at an offset where
a `Set` record for exactly that key decodes, so `get` never takes its
corruption branch: it returns `ok` (with `Some` or `None`), never `GetError`. -/
theorem kvC9_no_corruption (s : KvStore) (h : Reachable s) :
    (∀ e ∈ s.index, ∃ v n, decodeCmd (s.file.drop e.2) = some (.Set e.1 v, n)) ∧
      ∀ k, ∃ r, (get s k).1 = Except.ok r :=
  ⟨reachable_inv h, fun k => get_ok_of_inv (reachable_inv h) k⟩

/-- The store obtained by opening a directory whose log holds one record
`Set("b", "2")`. -/
def stC9 : KvStore :=
  { index := [("b", 0)], file := [0, 1, 98, 1, 50], comp := none,
    garbage := 0, cursor := 0 }

theorem kvC9_witness : ∃ r, (get stC9 "b").1 = Except.ok r :=
  (kvC9_no_corruption stC9
    (Reachable.openStore (by rfl : openStore [0, 1, 98, 1, 50] none = .ok stC9))).2 "b"

/-- C10: `get` leaves the index, the log file, the compaction file and the
garbage counter unchanged in every case; only the ghost read cursor of the
returned state may differ. -/
theorem kvC10_get_frame (s : KvStore) (k : Key) :
    (get s k).2.index = s.index ∧ (get s k).2.file = s.file ∧
      (get s k).2.comp = s.comp ∧ (get s k).2.garbage = s.garbage :=
  get_frame_all s k

/-- C4: in every reachable state, `remove` of a key present in the index
succeeds and a subsequent `get` of that key returns `None` (and a second
`remove` fails with `RmKeyNotFoundError`); `remove` of an absent key fails
with `RmKeyNotFoundError` and returns the state completely unchanged (log,
index and garbage counter included). -/
theorem kvC4_remove (s : KvStore) (h : Reachable s) (k : Key) :
    ((idxLookup s.index k).isSome →
      ∃ s', remove s k = (.ok (), s') ∧ (get s' k).1 = .ok none ∧
        remove s' k = (.error .RmKeyNotFoundError, s')) ∧
    (idxLookup s.index k = none →
      remove s k = (.error .RmKeyNotFoundError, s)) := by
  have hInv := reachable_inv h
  constructor
  · intro hk
    have hInv₂ : Inv
        { index := idxRemove s.index k,
          file := s.file ++ encodeCmd (.Rm k), comp := s.comp,
          garbage := s.garbage + 1, cursor := s.file.length } := by
      intro e he
      exact inv_entries_append _ hInv e (mem_idxRemove he)
    obtain ⟨s', hm⟩ := maybe_compact_ok_of_inv hInv₂
    have hlooknone : idxLookup s'.index k = none :=
      maybe_compact_lookup_none hm (idxLookup_remove_self s.index k)
    refine ⟨s', ?_, get_none_of hlooknone, ?_⟩
    · unfold remove
      rw [if_neg (by simp [idxContains, hk])]
      simp only [write_log]
      exact hm
    · unfold remove
      rw [if_pos (by simp [idxContains, hlooknone])]
  · intro hk
    unfold remove
    rw [if_pos (by simp [idxContains, hk])]

/-- The store obtained by opening a directory whose log holds one record
`Set("a", "1")`: key "a" is present. -/
def stC4 : KvStore :=
  { index := [("a", 0)], file := [0, 1, 97, 1, 49], comp := none,
    garbage := 0, cursor := 0 }

theorem kvC4_witness :
    (∃ s', remove stC4 "a" = (.ok (), s') ∧ (get s' "a").1 = .ok none ∧
        remove s' "a" = (.error .RmKeyNotFoundError, s')) ∧
      remove stC4 "b" = (.error .RmKeyNotFoundError, stC4) :=
  ⟨(kvC4_remove stC4
      (Reachable.openStore (by rfl : openStore [0, 1, 97, 1, 49] none = .ok stC4))
      "a").1 (by decide),
   (kvC4_remove stC4
      (Reachable.openStore (by rfl : openStore [0, 1, 97, 1, 49] none = .ok stC4))
      "b").2 (by decide)⟩

/-- C5 (amended): a compaction that runs and succeeds preserves every
retrievable key with its value and resets the garbage counter to 0 — in
every case; and the new log consists exactly of the re-encoded live `Set`
records provided no stale `kvs-comp.log` was present in the directory.  (The
compaction file is opened without truncation, so the surviving bytes of a
stale compaction file end up in the new log — see the counterexample, which
refutes only this last clause.) -/
theorem kvC5_compaction (s s' : KvStore)
    (hg : ¬ s.garbage < COMPACTION_THRESHOLD)
    (hm : maybe_compact_logs s = (.ok (), s')) :
    (∀ k v, (get s k).1 = .ok (some v) → (get s' k).1 = .ok (some v)) ∧
      s'.garbage = 0 ∧
      (s.comp = none → s'.file = liveRewrite s.file s.index) := by
  have hval : ∀ k v, (get s k).1 = .ok (some v) → (get s' k).1 = .ok (some v) := by
    intro k v hget
    obtain ⟨p, n, hl, hd⟩ := get_some_elim hget
    exact maybe_compact_get hm hl hd
  unfold maybe_compact_logs at hm
  rw [if_neg hg] at hm
  cases hc : compactGo s.file s.index 0 with
  | mk o w =>
    rw [hc] at hm
    cases o with
    | none => simp at hm
    | some idx' =>
      simp only [Prod.mk.injEq] at hm
      obtain ⟨-, hs'⟩ := hm
      subst hs'
      refine ⟨hval, rfl, ?_⟩
      intro hcomp
      show w ++ (s.comp.getD []).drop w.length = liveRewrite s.file s.index
      rw [hcomp]
      simpa using compactGo_w hc

/-- A store about to compact successfully, with no stale compaction file. -/
def stC5 : KvStore :=
  { index := [("a", 0)], file := [0, 1, 97, 1, 49], comp := none,
    garbage := 100, cursor := 0 }

/-- The result of compacting `stC5`. -/
def stC5' : KvStore :=
  { index := [("a", 0)], file := [0, 1, 97, 1, 49], comp := none,
    garbage := 0, cursor := 0 }

theorem kvC5_witness :
    (∀ k v, (get stC5 k).1 = .ok (some v) → (get stC5' k).1 = .ok (some v)) ∧
      stC5'.garbage = 0 ∧
      (stC5.comp = none → stC5'.file = liveRewrite stC5.file stC5.index) :=
  kvC5_compaction stC5 stC5' (by decide) (by rfl)

/-- A store about to compact successfully while a stale, longer
`kvs-comp.log` sits in the directory. -/
def stC5x : KvStore :=
  { index := [("a", 0)], file := [0, 1, 97, 1, 49],
    comp := some [9, 9, 9, 9, 9, 9, 9], garbage := 100, cursor := 0 }

theorem kvC5_counterexample :
    (maybe_compact_logs stC5x).1 = .ok () ∧
      (maybe_compact_logs stC5x).2.file ≠ liveRewrite stC5x.file stC5x.index :=
  ⟨by rfl, by decide⟩

/-- C6: the threshold is 100; every reachable state stays below it; a `set`
that supersedes a live entry and a successful `remove` each add exactly one
to the garbage counter and then run the compaction check, which resets the
counter to 0 when the incremented value reaches the threshold. -/
theorem kvC6_garbage_and_trigger :
    COMPACTION_THRESHOLD = 100 ∧
    (∀ s : KvStore, Reachable s → s.garbage < COMPACTION_THRESHOLD) ∧
    (∀ (s s' : KvStore) (k : Key) (v : Value), (idxLookup s.index k).isSome →
      set s k v = (.ok (), s') →
      s'.garbage = if s.garbage + 1 < COMPACTION_THRESHOLD then s.garbage + 1 else 0) ∧
    (∀ (s s' : KvStore) (k : Key), remove s k = (.ok (), s') →
      s'.garbage = if s.garbage + 1 < COMPACTION_THRESHOLD then s.garbage + 1 else 0) := by
  refine ⟨rfl, fun s h => reachable_garbage_lt h, ?_, ?_⟩
  · intro s s' k v hk h
    unfold set at h
    simp only [write_log] at h
    rw [if_pos hk] at h
    have hg := maybe_compact_ok_garbage_eq h
    simpa using hg
  · intro s s' k h
    unfold remove at h
    by_cases hc : idxContains s.index k = false
    · rw [if_pos hc] at h
      simp at h
    · rw [if_neg hc] at h
      simp only [write_log] at h
      have hg := maybe_compact_ok_garbage_eq h
      simpa using hg

/-- A one-key store (key "a" live at offset 0). -/
def stC6 : KvStore :=
  { index := [("a", 0)], file := [0, 1, 97, 1, 49], comp := none,
    garbage := 0, cursor := 0 }

/-- `stC6` after an overwriting `set("a", "2")`. -/
def stC6' : KvStore :=
  { index := [("a", 5)], file := [0, 1, 97, 1, 49, 0, 1, 97, 1, 50],
    comp := none, garbage := 1, cursor := 5 }

theorem kvC6_witness :
    stC6'.garbage
      = if stC6.garbage + 1 < COMPACTION_THRESHOLD then stC6.garbage + 1 else 0 :=
  kvC6_garbage_and_trigger.2.2.1 stC6 stC6' "a" "2" (by decide) (by rfl)

/-- C7: when the garbage counter has reached the threshold and some index
entry does not decode as a `Set` record, compaction fails with
`CompactionError` and leaves the log contents, the index and the garbage
counter exactly as they were. -/
theorem kvC7_compaction_failure (s : KvStore)
    (hg : ¬ s.garbage < COMPACTION_THRESHOLD)
    (hbad : ∃ e ∈ s.index, isSetAt s.file e.2 = false) :
    (maybe_compact_logs s).1 = .error .CompactionError ∧
      (maybe_compact_logs s).2.file = s.file ∧
      (maybe_compact_logs s).2.index = s.index ∧
      (maybe_compact_logs s).2.garbage = s.garbage := by
  have hnot : ¬ ∀ e ∈ s.index, isSetAt s.file e.2 = true := by
    obtain ⟨e, he, hbe⟩ := hbad
    intro hall
    rw [hall e he] at hbe
    exact absurd hbe (by simp)
  have hnone : (compactGo s.file s.index 0).1 = none := by
    cases ho : (compactGo s.file s.index 0).1 with
    | none => rfl
    | some idx' =>
      exfalso
      apply hnot
      refine (compactGo_isSome_iff s.file s.index 0).mp ?_
      rw [ho]
      simp
  unfold maybe_compact_logs
  rw [if_neg hg]
  cases hc : compactGo s.file s.index 0 with
  | mk o w =>
    rw [hc] at hnone
    simp only at hnone
    subst hnone
    exact ⟨rfl, rfl, rfl, rfl⟩

/-- A store at the threshold whose only index entry points at a `Rm` record. -/
def stC7 : KvStore :=
  { index := [("b", 0)], file := [1, 1, 98], comp := none,
    garbage := 100, cursor := 0 }

theorem kvC7_witness :
    (maybe_compact_logs stC7).1 = .error .CompactionError ∧
      (maybe_compact_logs stC7).2.file = stC7.file ∧
      (maybe_compact_logs stC7).2.index = stC7.index ∧
      (maybe_compact_logs stC7).2.garbage = stC7.garbage :=
  kvC7_compaction_failure stC7 (by decide) ⟨("b", 0), by decide, by decide⟩

/-- C8 (amended): once compaction runs, on success the transient compaction
file is gone (renamed over the primary log), but on failure the partially
written `kvs-comp.log` is left in the directory: the code has no deletion on
its failure path. -/
theorem kvC8_comp_file (s : KvStore) (hg : ¬ s.garbage < COMPACTION_THRESHOLD) :
    ((maybe_compact_logs s).1 = .ok () → (maybe_compact_logs s).2.comp = none) ∧
    (∀ e, (maybe_compact_logs s).1 = .error e →
      ∃ leftover, (maybe_compact_logs s).2.comp = some leftover) := by
  unfold maybe_compact_logs
  rw [if_neg hg]
  cases hc : compactGo s.file s.index 0 with
  | mk o w =>
    cases o with
    | none =>
      constructor
      · intro h
        simp at h
      · intro e h
        exact ⟨_, rfl⟩
    | some idx' =>
      constructor
      · intro h
        rfl
      · intro e h
        simp at h

/-- A store whose compaction fails (its only entry points at a `Rm` record). -/
def stC8 : KvStore :=
  { index := [("c", 0)], file := [1, 1, 99], comp := none,
    garbage := 100, cursor := 0 }

theorem kvC8_counterexample :
    (maybe_compact_logs stC8).1 = .error .CompactionError ∧
      (maybe_compact_logs stC8).2.comp ≠ none :=
  ⟨by rfl, by decide⟩

/-- A store whose compaction succeeds. -/
def stC8w : KvStore :=
  { index := [("a", 0)], file := [0, 1, 97, 1, 49], comp := none,
    garbage := 100, cursor := 0 }

theorem kvC8_witness :
    ((maybe_compact_logs stC8w).1 = .ok ()
        → (maybe_compact_logs stC8w).2.comp = none) ∧
      (∀ e, (maybe_compact_logs stC8w).1 = .error e →
        ∃ leftover, (maybe_compact_logs stC8w).2.comp = some leftover) :=
  kvC8_comp_file stC8w (by decide)
